import Mathlib

/-!
Shallow embedding of the accelerator2pitch audio core and proofs of its
specified properties.

The embedded code:
* `FloatArrayWrapper` — the chunked growable sample buffer
  (FloatArrayWrapper.ts): `push`, `shift`, `getElement`, `getSize`,
  `clear`, `getSizeInBytes`.
* `AudioController.play` — the per-tick phase-accumulator synthesis loop
  (AudioController.ts, lines 199-216).
* `AccelerationToRate.updateRate` — the motion-to-rate mapping with
  threshold, exponential smoothing and clamping (AccelerationToRate.ts,
  lines 93-138).

Modelling conventions: JS numbers are modelled as rationals (exact
arithmetic idealization of IEEE doubles); a `Float32Array` chunk is a
`List ℚ` of length 4096 initialised to 0 (float32 stores the pushed
values exactly in the ranges the program uses, so no quantisation is
modelled); `Math.floor(a / b)` and JS `%` on the nonnegative integers the
code produces are integer division and modulus; `Math.round` is
Mathlib's `round` (both are `⌊x + 1/2⌋`); `Math.ceil(a / b)` for a
positive integer divisor is `-((-a) / b)` by `ceil x = -floor (-x)`.
-/

/-- Chunk size of the buffer: `innerArraySize = 4096` in FloatArrayWrapper.ts. -/
def innerArraySize : Nat := 4096

/-- State of a `FloatArrayWrapper`: the chunk list `dataList` and the logical
sample count `currentElementCount`. -/
structure FloatArrayWrapper where
  dataList : List (List ℚ)
  currentElementCount : Nat

/-- A freshly constructed wrapper: no chunks, zero count. -/
def FloatArrayWrapper.empty : FloatArrayWrapper := ⟨[], 0⟩

/-- JS `Math.ceil(a / b)` for integer `a` and positive integer `b`:
`ceil x = -floor (-x)`, and `Int` division by a positive divisor is
floor division. -/
def mathCeilDiv (a b : ℤ) : ℤ := -(-a / b)

/-- Lines 19-23 of `push`: the unused tail capacity of the current last
chunk, `innerArraySize - currentElementCount % innerArraySize`, overridden to
0 when `currentElementCount` is an exact multiple of the chunk size. -/
def availableElementsIn (currentElementCount : Nat) : ℤ :=
  if currentElementCount % innerArraySize = 0 then 0
  else (innerArraySize : ℤ) - ((currentElementCount % innerArraySize : ℕ) : ℤ)

/-- Embeds `createAdditionalInnerArrays` (lines 48-52): appends `arraysCount` fresh
zero-initialised chunks of length `innerArraySize`. -/
def createAdditionalInnerArrays (dataList : List (List ℚ)) (arraysCount : Nat) :
    List (List ℚ) :=
  dataList ++ List.replicate arraysCount (List.replicate innerArraySize 0)

/-- One iteration of the copy loop of `push` (lines 31-41): writes `v` at
logical position `count` (chunk `count / innerArraySize`, offset
`count % innerArraySize`) when that chunk exists, else leaves the chunk list
unchanged (the `if (this.dataList[dataArrayIndex])` guard). -/
def writeSample (dataList : List (List ℚ)) (count : Nat) (v : ℚ) : List (List ℚ) :=
  match dataList.get? (count / innerArraySize) with
  | some chunk => dataList.set (count / innerArraySize) (chunk.set (count % innerArraySize) v)
  | none => dataList

/-- The copy loop of `push` after `n` iterations: iteration `j` (0-based)
writes `floatArray j` at logical position `count + j`; the mutable
`currentElementCount` of the source is `count + j` at iteration `j`. -/
def copyElements (dataList : List (List ℚ)) (count : Nat) (floatArray : Nat → ℚ) :
    Nat → List (List ℚ)
  | 0 => dataList
  | n + 1 => writeSample (copyElements dataList count floatArray n) (count + n) (floatArray n)

/-- Embeds `push(floatArray, arrayRealSize)` (lines 18-42): computes the available
tail capacity, allocates `Math.ceil(additionalElementsCount / innerArraySize)`
new chunks, copies `arrayRealSize` samples into consecutive logical positions
and advances `currentElementCount` by `arrayRealSize`. The input
`Float32Array` is modelled as the function `floatArray : ℕ → ℚ` giving its
elements. -/
def FloatArrayWrapper.push (w : FloatArrayWrapper) (floatArray : Nat → ℚ)
    (arrayRealSize : Nat) : FloatArrayWrapper :=
  let additionalElementsCount : ℤ :=
    (arrayRealSize : ℤ) - availableElementsIn w.currentElementCount
  let arraysToAddCount : ℤ := mathCeilDiv additionalElementsCount (innerArraySize : ℤ)
  { dataList :=
      copyElements (createAdditionalInnerArrays w.dataList arraysToAddCount.toNat)
        w.currentElementCount floatArray arrayRealSize
    currentElementCount := w.currentElementCount + arrayRealSize }

/-- Embeds `shift()` (lines 44-46): JS `Array.prototype.shift` removes and returns
the first chunk, or returns `undefined` (here `none`) on an empty list.
`currentElementCount` is not touched. -/
def FloatArrayWrapper.shift (w : FloatArrayWrapper) :
    Option (List ℚ) × FloatArrayWrapper :=
  (w.dataList.head?, { w with dataList := w.dataList.tail })

/-- Embeds `getElement(idx)` (lines 54-63): chunk index `Math.floor(idx /
innerArraySize)`, offset `idx % innerArraySize`; returns the stored value when
the chunk exists (a JS array lookup yields an element only for an integer
index in `[0, length)`) and 0 otherwise. In the branch where the value is
read the index is nonnegative, so JS `%` agrees with `Int.emod`. -/
def FloatArrayWrapper.getElement (w : FloatArrayWrapper) (idx : ℤ) : ℚ :=
  let arrayIndex : ℤ := idx / (innerArraySize : ℤ)
  let elementInArrayIdx : ℤ := idx % (innerArraySize : ℤ)
  if 0 ≤ arrayIndex ∧ arrayIndex < (w.dataList.length : ℤ) then
    (w.dataList.getD arrayIndex.toNat []).getD elementInArrayIdx.toNat 0
  else 0

/-- Embeds `getSize()` (lines 65-67). -/
def FloatArrayWrapper.getSize (w : FloatArrayWrapper) : Nat := w.currentElementCount

/-- Embeds `clear()` (lines 69-72). -/
def FloatArrayWrapper.clear (_ : FloatArrayWrapper) : FloatArrayWrapper := ⟨[], 0⟩

/-- Embeds `getSizeInBytes()` (lines 78-84): `BYTES_PER_ELEMENT = 4` for a
`Float32Array`. -/
def FloatArrayWrapper.getSizeInBytes (w : FloatArrayWrapper) : Nat :=
  match w.dataList with
  | [] => 0
  | _ :: _ => w.currentElementCount * 4

/-- State of the `AudioController` component that the per-tick `play`
function reads and writes. The host-object handles (`audioOutput`,
`audioSource`, `audio`) and the load-time scratch `audioFrame` are external
collaborators and do not appear in `play`'s data flow. -/
structure AudioController where
  rate : ℚ
  volume : ℚ
  phase : ℚ
  trackOnDeck : Bool
  audioData : Option FloatArrayWrapper
  resultFrame : Option (List ℚ)

/-- The inner loop of `play` (lines 204-208) after `n` iterations: each
iteration advances the phase by `rate` and then writes
`audioData.getElement(Math.round(phase)) * volume` into the result frame at
the iteration index (a write past the end of a `Float32Array` is dropped,
which `List.set` mirrors). -/
def synthLoop (buf : FloatArrayWrapper) (rate volume : ℚ) (phase : ℚ)
    (frame : List ℚ) : Nat → ℚ × List ℚ
  | 0 => (phase, frame)
  | n + 1 =>
    let prev := synthLoop buf rate volume phase frame n
    let p := prev.1 + rate
    (p, prev.2.set n (buf.getElement (round p) * volume))

/-- Embeds `play()` (lines 199-216): guard clause, inner synthesis loop over
`size = audioOutput.getPreferredFrameSize()` samples, looping check on the
final phase, and the enqueue of `(resultFrame, size)` to the audio output.
Returns the updated controller state and the enqueued frame (`none` when the
guard returns early and nothing is enqueued). -/
def AudioController.play (c : AudioController) (size : Nat) :
    AudioController × Option (List ℚ × Nat) :=
  match c.resultFrame, c.audioData with
  | some frame, some buf =>
    if c.trackOnDeck then
      let r := synthLoop buf c.rate c.volume c.phase frame size
      let newPhase : ℚ := if (buf.getSize : ℚ) ≤ r.1 ∨ c.rate = 0 then 0 else r.1
      ({ c with phase := newPhase, resultFrame := some r.2 }, some (r.2, size))
    else (c, none)
  | _, _ => (c, none)

/-- State of the `AccelerationToRate` component: the tunable inputs and the
two private rate fields. -/
structure AccelerationToRate where
  baseRate : ℚ
  useVelocity : Bool
  sensitivity : ℚ
  minRate : ℚ
  maxRate : ℚ
  smoothing : ℚ
  motionThreshold : ℚ
  currentRate : ℚ
  targetRate : ℚ

/-- Embeds `calculateTargetRate` (lines 123-130). -/
def AccelerationToRate.calculateTargetRate (s : AccelerationToRate)
    (motionMagnitude : ℚ) : ℚ :=
  s.baseRate * (1 + motionMagnitude * s.sensitivity)

/-- Embeds `applySmoothingToRate` (lines 132-138): exponential moving average. -/
def AccelerationToRate.applySmoothingToRate (s : AccelerationToRate)
    (currentRate targetRate : ℚ) : ℚ :=
  (1 - s.smoothing) * targetRate + s.smoothing * currentRate

/-- Embeds `updateRate` (lines 93-121): selects the motion magnitude from the
calculator, compares it (strictly) against `motionThreshold`, smooths the
rate, clamps it with `Math.max(minRate, Math.min(maxRate, currentRate))` and
writes it to `audioController.rate`. Returns the new component state and the
rate written to the engine. -/
def AccelerationToRate.updateRate (s : AccelerationToRate)
    (velocityMagnitude accelerationMagnitude : ℚ) : AccelerationToRate × ℚ :=
  let motionMagnitude := if s.useVelocity then velocityMagnitude else accelerationMagnitude
  let targetRate :=
    if motionMagnitude < s.motionThreshold then s.baseRate
    else s.calculateTargetRate motionMagnitude
  let smoothed := s.applySmoothingToRate s.currentRate targetRate
  let clamped := max s.minRate (min s.maxRate smoothed)
  ({ s with targetRate := targetRate, currentRate := clamped }, clamped)

/-! ### Generic list lemmas used by the buffer proofs -/

theorem getD_set_eq_ite {α : Type} (l : List α) (i j : Nat) (a d : α) :
    (l.set i a).getD j d = if i = j ∧ j < l.length then a else l.getD j d := by
  induction l generalizing i j with
  | nil => simp
  | cons x xs ih =>
    cases i with
    | zero =>
      cases j with
      | zero => simp
      | succ j => simp
    | succ i =>
      cases j with
      | zero => simp
      | succ j =>
        simp only [List.set_cons_succ, List.getD_cons_succ, List.length_cons, ih i j]
        have : (i = j ∧ j < xs.length) ↔ (i + 1 = j + 1 ∧ j + 1 < xs.length + 1) := by omega
        by_cases h : i = j ∧ j < xs.length
        · rw [if_pos h, if_pos (this.mp h)]
        · rw [if_neg h, if_neg (fun hc => h (this.mpr hc))]

theorem get?_set_eq_ite {α : Type} (l : List α) (i j : Nat) (a : α) :
    (l.set i a).get? j = if i = j ∧ j < l.length then some a else l.get? j := by
  induction l generalizing i j with
  | nil => simp
  | cons x xs ih =>
    cases i with
    | zero =>
      cases j with
      | zero => simp
      | succ j => simp
    | succ i =>
      cases j with
      | zero => simp
      | succ j =>
        simp only [List.set_cons_succ, List.get?_cons_succ, List.length_cons, ih i j]
        have : (i = j ∧ j < xs.length) ↔ (i + 1 = j + 1 ∧ j + 1 < xs.length + 1) := by omega
        by_cases h : i = j ∧ j < xs.length
        · rw [if_pos h, if_pos (this.mp h)]
        · rw [if_neg h, if_neg (fun hc => h (this.mpr hc))]

theorem getD_append_lt {α : Type} (l₁ l₂ : List α) (i : Nat) (d : α)
    (h : i < l₁.length) : (l₁ ++ l₂).getD i d = l₁.getD i d := by
  induction l₁ generalizing i with
  | nil => simp at h
  | cons x xs ih =>
    cases i with
    | zero => simp
    | succ i =>
      simp only [List.cons_append, List.getD_cons_succ]
      exact ih i (by simpa using Nat.lt_of_succ_lt_succ h)

theorem getD_append_ge {α : Type} (l₁ l₂ : List α) (i : Nat) (d : α)
    (h : l₁.length ≤ i) : (l₁ ++ l₂).getD i d = l₂.getD (i - l₁.length) d := by
  induction l₁ generalizing i with
  | nil => simp
  | cons x xs ih =>
    cases i with
    | zero => simp at h
    | succ i =>
      simp only [List.cons_append, List.getD_cons_succ, List.length_cons]
      rw [ih i (by simpa using Nat.le_of_succ_le_succ h)]
      congr 1
      omega

theorem getD_replicate_eq_ite {α : Type} (k j : Nat) (c d : α) :
    (List.replicate k c).getD j d = if j < k then c else d := by
  induction k generalizing j with
  | zero => simp
  | succ k ih =>
    cases j with
    | zero => simp [List.replicate]
    | succ j =>
      simp only [List.replicate, List.getD_cons_succ, ih j]
      by_cases h : j < k
      · rw [if_pos h, if_pos (by omega)]
      · rw [if_neg h, if_neg (by omega)]

theorem getD_eq_default_of_le {α : Type} (l : List α) (i : Nat) (d : α)
    (h : l.length ≤ i) : l.getD i d = d := by
  induction l generalizing i with
  | nil => simp
  | cons x xs ih =>
    cases i with
    | zero => simp at h
    | succ i => simpa using ih i (by simpa using Nat.le_of_succ_le_succ h)

theorem getD_of_get?_some {α : Type} {l : List α} {n : Nat} {a : α}
    (h : l.get? n = some a) (d : α) : l.getD n d = a := by
  induction l generalizing n with
  | nil => simp at h
  | cons x xs ih =>
    cases n with
    | zero => simp_all
    | succ n => simpa using ih (by simpa using h)

/-! ### The chunk-layout abstraction of the buffer -/

/-- The value stored at logical position `i` of a chunk list: the sample at
`chunks[i / chunkSize][i % chunkSize]`, with 0 for anything unallocated. -/
def readAt (dataList : List (List ℚ)) (i : Nat) : ℚ :=
  (dataList.getD (i / innerArraySize) []).getD (i % innerArraySize) 0

/-- Reading `getElement` at a nonnegative index is exactly the chunk-layout read. -/
theorem getElement_natCast (w : FloatArrayWrapper) (i : Nat) :
    w.getElement (i : ℤ) = readAt w.dataList i := by
  have e1 : ((i : ℤ) / (innerArraySize : ℤ)).toNat = i / innerArraySize := by
    simp only [innerArraySize]; omega
  have e2 : ((i : ℤ) % (innerArraySize : ℤ)).toNat = i % innerArraySize := by
    simp only [innerArraySize]; omega
  simp only [FloatArrayWrapper.getElement, readAt]
  split
  next h => rw [e1, e2]
  next h =>
    have hlen : w.dataList.length ≤ i / innerArraySize := by
      simp only [innerArraySize] at h ⊢
      omega
    rw [getD_eq_default_of_le _ _ _ hlen]
    simp

/-- A `writeSample` call preserves the number of chunks. -/
theorem writeSample_length (dl : List (List ℚ)) (count : Nat) (v : ℚ) :
    (writeSample dl count v).length = dl.length := by
  unfold writeSample
  split <;> simp

/-- A `writeSample` call preserves the chunk lengths. -/
theorem writeSample_chunk_len (dl : List (List ℚ)) (count : Nat) (v : ℚ)
    (hchunk : ∀ c ∈ dl, c.length = innerArraySize) :
    ∀ c ∈ writeSample dl count v, c.length = innerArraySize := by
  unfold writeSample
  split
  next chunk hget =>
    intro c hc
    rcases List.mem_or_eq_of_mem_set hc with h | h
    · exact hchunk c h
    · subst h
      rw [List.length_set]
      exact hchunk chunk (List.get?_mem hget)
  next => exact hchunk

/-- The copy loop `copyElements` preserves the number of chunks. -/
theorem copyElements_length (dl : List (List ℚ)) (count : Nat) (f : Nat → ℚ)
    (n : Nat) : (copyElements dl count f n).length = dl.length := by
  induction n with
  | zero => rfl
  | succ n ih => rw [copyElements, writeSample_length, ih]

/-- The copy loop `copyElements` preserves the chunk lengths. -/
theorem copyElements_chunk_len (dl : List (List ℚ)) (count : Nat) (f : Nat → ℚ)
    (n : Nat) (hchunk : ∀ c ∈ dl, c.length = innerArraySize) :
    ∀ c ∈ copyElements dl count f n, c.length = innerArraySize := by
  induction n with
  | zero => exact hchunk
  | succ n ih => exact writeSample_chunk_len _ _ _ ih

/-- When the target chunk exists and the chunk lengths are right, one
`writeSample` is a pointwise update of the chunk-layout contents. -/
theorem readAt_writeSample (dl : List (List ℚ)) (cnt : Nat) (v : ℚ) (i : Nat)
    (hchunk : ∀ c ∈ dl, c.length = innerArraySize)
    (hcap : cnt < dl.length * innerArraySize) :
    readAt (writeSample dl cnt v) i = if i = cnt then v else readAt dl i := by
  have h4096 : innerArraySize = 4096 := rfl
  rw [h4096] at hcap
  have hdiv : cnt / innerArraySize < dl.length := by rw [h4096]; omega
  obtain ⟨chunk, hget⟩ : ∃ c, dl.get? (cnt / innerArraySize) = some c := by
    rw [List.get?_eq_get hdiv]; exact ⟨_, rfl⟩
  have hchlen : chunk.length = innerArraySize := hchunk chunk (List.get?_mem hget)
  unfold writeSample
  rw [hget]
  unfold readAt
  rw [getD_set_eq_ite]
  by_cases hio : cnt / innerArraySize = i / innerArraySize
  · rw [if_pos ⟨hio, hio ▸ hdiv⟩, getD_set_eq_ite]
    have hbase : dl.getD (i / innerArraySize) [] = chunk :=
      hio ▸ getD_of_get?_some hget []
    by_cases hii : i = cnt
    · subst hii
      rw [if_pos ⟨rfl, by rw [hchlen, h4096]; omega⟩, if_pos rfl]
    · have hmod : ¬(cnt % innerArraySize = i % innerArraySize ∧
          i % innerArraySize < chunk.length) := by
        rw [h4096] at hio ⊢
        intro hc
        exact hii (by omega)
      rw [if_neg hmod, if_neg hii, hbase]
  · rw [if_neg (fun hc => hio hc.1)]
    have hii : i ≠ cnt := fun hc => hio (by rw [hc])
    rw [if_neg hii]

/-- The copy loop writes `f j` at logical position `cnt + j` for `j < n` and
leaves everything else as it was, provided the chunk list has capacity for
positions up to `cnt + n`. -/
theorem readAt_copyElements (dl : List (List ℚ)) (cnt : Nat) (f : Nat → ℚ)
    (hchunk : ∀ c ∈ dl, c.length = innerArraySize) (i : Nat) :
    ∀ n, cnt + n ≤ dl.length * innerArraySize →
      readAt (copyElements dl cnt f n) i =
        if cnt ≤ i ∧ i < cnt + n then f (i - cnt) else readAt dl i := by
  intro n
  induction n with
  | zero => intro _; rw [if_neg (by omega)]; rfl
  | succ n ih =>
    intro hcap
    have hlenn := copyElements_length dl cnt f n
    have hchunkn := copyElements_chunk_len dl cnt f n hchunk
    rw [show copyElements dl cnt f (n + 1) =
      writeSample (copyElements dl cnt f n) (cnt + n) (f n) from rfl]
    rw [readAt_writeSample _ _ _ i hchunkn (by rw [hlenn]; omega)]
    rw [ih (by omega)]
    by_cases h1 : i = cnt + n
    · subst h1
      rw [if_pos rfl, if_pos (by omega)]
      congr 1
      omega
    · rw [if_neg h1]
      by_cases h2 : cnt ≤ i ∧ i < cnt + n
      · rw [if_pos h2, if_pos (by omega)]
      · rw [if_neg h2, if_neg (by omega)]

/-- Appending fresh zero chunks does not change any chunk-layout read. -/
theorem readAt_append_zeros (dl : List (List ℚ)) (k i : Nat) :
    readAt (dl ++ List.replicate k (List.replicate innerArraySize 0)) i
      = readAt dl i := by
  unfold readAt
  rcases Nat.lt_or_ge (i / innerArraySize) dl.length with h | h
  · rw [getD_append_lt _ _ _ _ h]
  · rw [getD_append_ge _ _ _ _ h, getD_eq_default_of_le dl _ _ h]
    rw [getD_replicate_eq_ite]
    by_cases hk : i / innerArraySize - dl.length < k
    · rw [if_pos hk, getD_replicate_eq_ite]
      split <;> rfl
    · rw [if_neg hk]

/-- The chunk-count bookkeeping of `push`: starting from the invariant
`len = ⌈count / innerArraySize⌉`, allocating
`Math.ceil((n - available) / innerArraySize)` further chunks restores the
invariant for `count + n`. -/
theorem chunkCount_after_push (count n len : Nat)
    (h : len = (count + (innerArraySize - 1)) / innerArraySize) :
    len + (mathCeilDiv ((n : ℤ) - availableElementsIn count) (innerArraySize : ℤ)).toNat
      = (count + n + (innerArraySize - 1)) / innerArraySize := by
  simp only [mathCeilDiv, availableElementsIn, innerArraySize] at *
  by_cases hc : count % 4096 = 0 <;> simp only [hc, if_true, if_false] <;> omega

/-- The number of chunks `push` allocates is never negative. -/
theorem arraysToAdd_nonneg (count n : Nat) :
    0 ≤ mathCeilDiv ((n : ℤ) - availableElementsIn count) (innerArraySize : ℤ) := by
  simp only [mathCeilDiv, availableElementsIn, innerArraySize]
  by_cases hc : count % 4096 = 0 <;> simp only [hc, if_true, if_false] <;> omega

/-- The abstraction invariant tying a wrapper state to the list `l` of all
samples pushed so far (in order): the count is `l.length`, exactly
`⌈l.length / innerArraySize⌉` chunks exist, every chunk has length
`innerArraySize`, positions below the count hold the pushed samples, and all
other positions hold 0. -/
structure Models (w : FloatArrayWrapper) (l : List ℚ) : Prop where
  count_eq : w.currentElementCount = l.length
  len_eq : w.dataList.length = (l.length + (innerArraySize - 1)) / innerArraySize
  chunk_len : ∀ c ∈ w.dataList, c.length = innerArraySize
  read_lt : ∀ i, i < l.length → readAt w.dataList i = l.getD i 0
  read_ge : ∀ i, l.length ≤ i → readAt w.dataList i = 0

/-- A fresh wrapper models the empty sample list. -/
theorem models_empty : Models FloatArrayWrapper.empty [] := by
  refine ⟨rfl, rfl, ?_, ?_, ?_⟩
  · intro c hc
    simp [FloatArrayWrapper.empty] at hc
  · intro i hi
    simp at hi
  · intro i _
    simp [readAt, FloatArrayWrapper.empty, List.getD]

/-- Reading the sample block contributed by one push via `getD`. -/
theorem getD_map_range (f : Nat → ℚ) :
    ∀ n j, j < n → ((List.range n).map f).getD j 0 = f j := by
  intro n
  induction n with
  | zero => intro j hj; omega
  | succ n ih =>
    intro j hj
    rw [List.range_succ, List.map_append]
    by_cases h : j < n
    · rw [getD_append_lt _ _ _ _ (by simpa using h)]
      exact ih j h
    · have hjn : j = n := by omega
      subst hjn
      rw [getD_append_ge _ _ _ _ (by simp)]
      simp

/-- One `push` extends the modelled sample list by the `arrayRealSize`
samples read from `floatArray`. -/
theorem models_push {w : FloatArrayWrapper} {l : List ℚ} (hw : Models w l)
    (f : Nat → ℚ) (n : Nat) :
    Models (w.push f n) (l ++ (List.range n).map f) := by
  obtain ⟨hcount, hlen, hchunk, hlt, hge⟩ := hw
  have hpush : w.push f n =
      ⟨copyElements
          (createAdditionalInnerArrays w.dataList
            (mathCeilDiv ((n : ℤ) - availableElementsIn w.currentElementCount)
              (innerArraySize : ℤ)).toNat)
          w.currentElementCount f n,
        w.currentElementCount + n⟩ := rfl
  set dl' := createAdditionalInnerArrays w.dataList
      (mathCeilDiv ((n : ℤ) - availableElementsIn w.currentElementCount)
        (innerArraySize : ℤ)).toNat with hdlEq
  have hdl'len : dl'.length =
      (w.currentElementCount + n + (innerArraySize - 1)) / innerArraySize := by
    rw [hdlEq]
    unfold createAdditionalInnerArrays
    rw [List.length_append, List.length_replicate]
    exact chunkCount_after_push w.currentElementCount n w.dataList.length
      (by rw [hlen, hcount])
  have hdl'chunk : ∀ c ∈ dl', c.length = innerArraySize := by
    rw [hdlEq]
    unfold createAdditionalInnerArrays
    intro c hc
    rcases List.mem_append.mp hc with h | h
    · exact hchunk c h
    · rw [List.eq_of_mem_replicate h]
      exact List.length_replicate _ _
  have hdl'read : ∀ i, readAt dl' i = readAt w.dataList i := by
    intro i
    rw [hdlEq]
    exact readAt_append_zeros _ _ i
  have hcap : w.currentElementCount + n ≤ dl'.length * innerArraySize := by
    rw [hdl'len]
    simp only [innerArraySize]
    omega
  have hread := readAt_copyElements dl' w.currentElementCount f hdl'chunk
  constructor
  · rw [hpush]
    simp [hcount]
  · rw [hpush]
    simp only [copyElements_length, hdl'len, List.length_append, List.length_map,
      List.length_range, hcount]
  · rw [hpush]
    exact copyElements_chunk_len _ _ _ _ hdl'chunk
  · intro i hi
    rw [hpush]
    simp only []
    rw [hread i n hcap]
    by_cases h1 : w.currentElementCount ≤ i ∧ i < w.currentElementCount + n
    · rw [if_pos h1, getD_append_ge _ _ _ _ (by omega)]
      rw [hcount] at h1 ⊢
      rw [getD_map_range f n (i - l.length) (by simp at hi; omega)]
    · rw [if_neg h1]
      have hil : i < l.length := by
        simp only [List.length_append, List.length_map, List.length_range] at hi
        omega
      rw [hdl'read i, hlt i hil, getD_append_lt _ _ _ _ hil]
  · intro i hi
    rw [hpush]
    simp only []
    rw [hread i n hcap]
    simp only [List.length_append, List.length_map, List.length_range] at hi
    rw [if_neg (by omega)]
    rw [hdl'read i]
    exact hge i (by omega)

/-- A sequence of `push` calls, each given by the pushed array (as a function)
and its `arrayRealSize`, applied in order. -/
def applyPushes (w : FloatArrayWrapper) : List ((Nat → ℚ) × Nat) → FloatArrayWrapper
  | [] => w
  | p :: ps => applyPushes (w.push p.1 p.2) ps

/-- The concatenation of the pushed samples: push `(f, n)` contributes
`f 0, …, f (n-1)`. -/
def flatSamples : List ((Nat → ℚ) × Nat) → List ℚ
  | [] => []
  | p :: ps => (List.range p.2).map p.1 ++ flatSamples ps

theorem models_applyPushes :
    ∀ (ps : List ((Nat → ℚ) × Nat)) (w : FloatArrayWrapper) (l : List ℚ),
      Models w l → Models (applyPushes w ps) (l ++ flatSamples ps)
  | [], w, l, h => by simpa [applyPushes, flatSamples] using h
  | p :: ps, w, l, h => by
    have h2 := models_applyPushes ps (w.push p.1 p.2) _ (models_push h p.1 p.2)
    simpa [applyPushes, flatSamples, List.append_assoc] using h2

/-- Any state reached from a fresh wrapper by pushes models exactly the
concatenated pushed samples. -/
theorem models_of_pushes (ps : List ((Nat → ℚ) × Nat)) :
    Models (applyPushes FloatArrayWrapper.empty ps) (flatSamples ps) := by
  simpa using models_applyPushes ps FloatArrayWrapper.empty [] models_empty

/-- C1: for every sequence of `push` calls whose sample counts total `N`,
`getSize()` returns `N`, and for every `i < N`, `getElement(i)` returns
exactly the value at logical position `i` of the concatenated pushed
samples — for any `N`, including 0, exact multiples of the chunk size 4096,
and values just above a multiple. -/
theorem push_sequence_reads_exact (ps : List ((Nat → ℚ) × Nat)) :
    (applyPushes FloatArrayWrapper.empty ps).getSize = (flatSamples ps).length ∧
    ∀ i, i < (flatSamples ps).length →
      (applyPushes FloatArrayWrapper.empty ps).getElement (i : ℤ)
        = (flatSamples ps).getD i 0 := by
  have hm := models_of_pushes ps
  exact ⟨hm.count_eq, fun i hi => (getElement_natCast _ i).trans (hm.read_lt i hi)⟩

/-- Concrete instance for `push_sequence_reads_exact`: three pushes of sizes
2, 1 and 1; position 2 holds the first sample of the second push. -/
def pushesW : List ((Nat → ℚ) × Nat) :=
  [(fun j => (j : ℚ), 2), (fun _ => 10, 1), (fun _ => 20, 1)]

theorem push_sequence_reads_exact_witness :
    (applyPushes FloatArrayWrapper.empty pushesW).getSize = 4 ∧
    (applyPushes FloatArrayWrapper.empty pushesW).getElement ((2 : ℕ) : ℤ) = 10 := by
  have h := push_sequence_reads_exact pushesW
  exact ⟨h.1.trans rfl, (h.2 2 (by decide)).trans rfl⟩

/-- C3: after pushes totalling `N` samples, `getElement(i)` for any `i ≥ N`
(including indices far beyond any allocated chunk) returns 0 and, being a
total function, never raises. -/
theorem getElement_beyond_size_eq_zero (ps : List ((Nat → ℚ) × Nat)) (i : ℤ)
    (h : ((flatSamples ps).length : ℤ) ≤ i) :
    (applyPushes FloatArrayWrapper.empty ps).getElement i = 0 := by
  have hm := models_of_pushes ps
  have h0 : 0 ≤ i := le_trans (by positivity) h
  have hi : i = ((i.toNat : ℕ) : ℤ) := (Int.toNat_of_nonneg h0).symm
  rw [hi, getElement_natCast]
  exact hm.read_ge i.toNat (by omega)

theorem getElement_beyond_size_eq_zero_witness :
    (applyPushes FloatArrayWrapper.empty pushesW).getElement 50000000 = 0 :=
  getElement_beyond_size_eq_zero pushesW 50000000 (by decide)

/-- C10: for every buffer state and every negative index, `getElement`
returns 0 (the chunk index `Math.floor(i / 4096)` is negative, no chunk
exists there, and the missing-chunk branch returns 0) and never raises. -/
theorem getElement_negative_eq_zero (w : FloatArrayWrapper) (idx : ℤ)
    (h : idx < 0) : w.getElement idx = 0 := by
  simp only [FloatArrayWrapper.getElement, innerArraySize]
  rw [if_neg]
  intro hc
  obtain ⟨h0, _⟩ := hc
  omega

theorem getElement_negative_eq_zero_witness :
    (applyPushes FloatArrayWrapper.empty pushesW).getElement (-7) = 0 :=
  getElement_negative_eq_zero _ (-7) (by decide)

/-- C7: `shift` removes and returns the oldest chunk when at least one chunk
exists and returns `none` when none remain; in both cases the stored
`currentElementCount` — hence `getSize()` — is unchanged. -/
theorem shift_pops_front_size_unchanged (w : FloatArrayWrapper) :
    (∀ c cs, w.dataList = c :: cs →
      w.shift = (some c, ⟨cs, w.currentElementCount⟩)) ∧
    (w.dataList = [] → w.shift = (none, w)) ∧
    w.shift.2.getSize = w.getSize := by
  obtain ⟨dl, cnt⟩ := w
  refine ⟨?_, ?_, rfl⟩
  · rintro c cs h
    simp only at h
    subst h
    rfl
  · intro h
    simp only at h
    subst h
    rfl

/-- Concrete wrapper with one chunk for the `shift` witness. -/
def wrapperShiftW : FloatArrayWrapper := ⟨[List.replicate innerArraySize 0], 5⟩

theorem shift_pops_front_size_unchanged_witness :
    wrapperShiftW.shift = (some (List.replicate innerArraySize 0), ⟨[], 5⟩) ∧
    wrapperShiftW.shift.2.getSize = wrapperShiftW.getSize := by
  have h := shift_pops_front_size_unchanged wrapperShiftW
  exact ⟨h.1 (List.replicate innerArraySize 0) [] rfl, h.2.2⟩

/-- C4: every `push(floatArray, count)` grows the chunk list by exactly
`Math.ceil((count - availableTail) / innerArraySize)` chunks, where
`availableTail` is the unused tail capacity of the current last chunk as
computed by the code — and this growth is never negative. In particular, when
`currentElementCount` is an exact multiple of the chunk size the tail
capacity counts as zero, so the growth is `Math.ceil(count / innerArraySize)`
fresh chunks. -/
theorem push_chunk_growth (w : FloatArrayWrapper) (f : Nat → ℚ) (n : Nat) :
    ((w.push f n).dataList.length : ℤ)
        = (w.dataList.length : ℤ)
          + mathCeilDiv ((n : ℤ) - availableElementsIn w.currentElementCount)
              (innerArraySize : ℤ) ∧
    0 ≤ mathCeilDiv ((n : ℤ) - availableElementsIn w.currentElementCount)
          (innerArraySize : ℤ) ∧
    (w.currentElementCount % innerArraySize = 0 →
      ((w.push f n).dataList.length : ℤ)
        = (w.dataList.length : ℤ) + mathCeilDiv (n : ℤ) (innerArraySize : ℤ)) := by
  have hnn := arraysToAdd_nonneg w.currentElementCount n
  have hlen : (w.push f n).dataList.length =
      w.dataList.length
        + (mathCeilDiv ((n : ℤ) - availableElementsIn w.currentElementCount)
            (innerArraySize : ℤ)).toNat := by
    show (copyElements (createAdditionalInnerArrays _ _) _ _ _).length = _
    rw [copyElements_length]
    unfold createAdditionalInnerArrays
    rw [List.length_append, List.length_replicate]
  refine ⟨by omega, hnn, ?_⟩
  intro h0
  have hav : availableElementsIn w.currentElementCount = 0 := by
    simp [availableElementsIn, h0]
  rw [hav, sub_zero] at hlen hnn
  omega

/-- Concrete instance for `push_chunk_growth`: pushing 5000 samples into a
fresh wrapper (count 0, a multiple of 4096) allocates `⌈5000/4096⌉ = 2`
chunks. -/
theorem push_chunk_growth_witness :
    ((FloatArrayWrapper.empty.push (fun _ => 1) 5000).dataList.length : ℤ)
        = (FloatArrayWrapper.empty.dataList.length : ℤ)
          + mathCeilDiv (((5000 : ℕ) : ℤ)
              - availableElementsIn FloatArrayWrapper.empty.currentElementCount)
              (innerArraySize : ℤ) ∧
    ((FloatArrayWrapper.empty.push (fun _ => 1) 5000).dataList.length : ℤ)
        = (FloatArrayWrapper.empty.dataList.length : ℤ)
          + mathCeilDiv (((5000 : ℕ) : ℤ)) (innerArraySize : ℤ) := by
  have h := push_chunk_growth FloatArrayWrapper.empty (fun _ => 1) 5000
  exact ⟨h.1, h.2.2 rfl⟩

/-! ### The synthesis loop -/

/-- After `n` iterations the phase has advanced by `n * rate`. -/
theorem synthLoop_fst (buf : FloatArrayWrapper) (r v p : ℚ) (fr : List ℚ) :
    ∀ n, (synthLoop buf r v p fr n).1 = p + n * r := by
  intro n
  induction n with
  | zero => simp [synthLoop]
  | succ n ih =>
    show (synthLoop buf r v p fr n).1 + r = _
    rw [ih]
    push_cast
    ring

/-- The synthesis loop never changes the frame length. -/
theorem synthLoop_snd_length (buf : FloatArrayWrapper) (r v p : ℚ) (fr : List ℚ) :
    ∀ n, (synthLoop buf r v p fr n).2.length = fr.length := by
  intro n
  induction n with
  | zero => rfl
  | succ n ih =>
    show ((synthLoop buf r v p fr n).2.set n _).length = _
    rw [List.length_set, ih]

/-- Element `i` of the synthesized frame: for `i < n` (and inside the frame)
it is `getElement(round(phase + (i+1) * rate)) * volume`; all other positions
keep their previous contents. -/
theorem synthLoop_snd_get (buf : FloatArrayWrapper) (r v p : ℚ) (fr : List ℚ) :
    ∀ n i, (synthLoop buf r v p fr n).2.get? i =
      if i < n ∧ i < fr.length then
        some (buf.getElement (round (p + ((i : ℚ) + 1) * r)) * v)
      else fr.get? i := by
  intro n
  induction n with
  | zero =>
    intro i
    rw [if_neg (by omega)]
    rfl
  | succ n ih =>
    intro i
    have hphase : (synthLoop buf r v p fr n).1 + r = p + ((n : ℚ) + 1) * r := by
      rw [synthLoop_fst]
      ring
    show ((synthLoop buf r v p fr n).2.set n
        (buf.getElement (round ((synthLoop buf r v p fr n).1 + r)) * v)).get? i = _
    rw [hphase, get?_set_eq_ite, synthLoop_snd_length, ih i]
    by_cases h1 : n = i ∧ i < fr.length
    · obtain ⟨h1a, h1b⟩ := h1
      subst h1a
      rw [if_pos ⟨rfl, h1b⟩, if_pos ⟨by omega, h1b⟩]
    · rw [if_neg h1]
      by_cases h2 : i < n ∧ i < fr.length
      · rw [if_pos h2, if_pos ⟨by omega, h2.2⟩]
      · rw [if_neg h2, if_neg (by omega)]

/-- C2: when a track is on deck, a result frame exists and a buffer is bound,
one `play(size)` invocation advances the phase by `rate` before each of the
`size` reads, writes `getElement(round(phase)) * volume` into the output
frame slot `i` (so slot `i` holds the read at phase `phase₀ + (i+1)·rate`),
enqueues the frame, and afterwards resets the phase to 0 exactly when the
final phase `phase₀ + size·rate` is `≥ getSize()` or `rate = 0` — using only
the final phase, so a frame may read past the logical end (silence) before
wrapping on the next frame — and otherwise keeps the final phase. -/
theorem play_synthesizes_frame (c : AudioController) (frame : List ℚ)
    (buf : FloatArrayWrapper) (size : Nat)
    (hf : c.resultFrame = some frame) (hb : c.audioData = some buf)
    (ht : c.trackOnDeck = true) :
    ((c.play size).1.phase =
      if (buf.getSize : ℚ) ≤ c.phase + (size : ℚ) * c.rate ∨ c.rate = 0 then 0
      else c.phase + (size : ℚ) * c.rate) ∧
    (c.play size).2 = some ((synthLoop buf c.rate c.volume c.phase frame size).2, size) ∧
    ∀ i, i < size → i < frame.length →
      (synthLoop buf c.rate c.volume c.phase frame size).2.get? i
        = some (buf.getElement (round (c.phase + ((i : ℚ) + 1) * c.rate)) * c.volume) := by
  have hplay : c.play size =
      ({ c with
          phase := if (buf.getSize : ℚ) ≤ (synthLoop buf c.rate c.volume c.phase frame size).1
              ∨ c.rate = 0 then 0
            else (synthLoop buf c.rate c.volume c.phase frame size).1,
          resultFrame := some (synthLoop buf c.rate c.volume c.phase frame size).2 },
        some ((synthLoop buf c.rate c.volume c.phase frame size).2, size)) := by
    simp only [AudioController.play, hf, hb, ht, if_true]
  refine ⟨?_, ?_, ?_⟩
  · rw [hplay]
    show (if (buf.getSize : ℚ) ≤ (synthLoop buf c.rate c.volume c.phase frame size).1
        ∨ c.rate = 0 then (0 : ℚ)
      else (synthLoop buf c.rate c.volume c.phase frame size).1) = _
    rw [synthLoop_fst]
  · rw [hplay]
  · intro i h1 h2
    rw [synthLoop_snd_get, if_pos ⟨h1, h2⟩]

/-- Concrete controller for the `play` witness. -/
def controllerW : AudioController :=
  { rate := 1, volume := 1, phase := 0, trackOnDeck := true,
    audioData := some FloatArrayWrapper.empty, resultFrame := some [3, 3] }

theorem play_synthesizes_frame_witness :
    ((controllerW.play 2).1.phase =
      if (FloatArrayWrapper.empty.getSize : ℚ)
            ≤ controllerW.phase + ((2 : ℕ) : ℚ) * controllerW.rate
          ∨ controllerW.rate = 0 then 0
      else controllerW.phase + ((2 : ℕ) : ℚ) * controllerW.rate) ∧
    (controllerW.play 2).2
      = some ((synthLoop FloatArrayWrapper.empty controllerW.rate controllerW.volume
          controllerW.phase [3, 3] 2).2, 2) ∧
    (synthLoop FloatArrayWrapper.empty controllerW.rate controllerW.volume
        controllerW.phase [3, 3] 2).2.get? 0
      = some (FloatArrayWrapper.empty.getElement
          (round (controllerW.phase + (((0 : ℕ) : ℚ) + 1) * controllerW.rate))
          * controllerW.volume) := by
  have h := play_synthesizes_frame controllerW [3, 3] FloatArrayWrapper.empty 2 rfl rfl rfl
  exact ⟨h.1, h.2.1, h.2.2 0 (by omega) (by simp)⟩

/-- C8: when the result frame is absent, no track is on deck, or no buffer is
bound, `play` returns without synthesizing: the whole state (phase, rate,
volume, result frame) is unchanged and nothing is enqueued; being a total
function it never raises. -/
theorem play_guard_returns_unchanged (c : AudioController) (size : Nat)
    (h : c.resultFrame = none ∨ c.trackOnDeck = false ∨ c.audioData = none) :
    c.play size = (c, none) := by
  rcases hfr : c.resultFrame with _ | frame <;>
    rcases had : c.audioData with _ | buf <;>
      simp only [AudioController.play, hfr, had]
  rcases h with h | h | h
  · rw [hfr] at h
    exact absurd h (by simp)
  · rw [h]
    simp
  · rw [had] at h
    exact absurd h (by simp)

/-- Concrete controller (no track on deck) for the guard witness. -/
def idleControllerW : AudioController :=
  { rate := 1, volume := 1, phase := 7, trackOnDeck := false,
    audioData := some FloatArrayWrapper.empty, resultFrame := some [0] }

theorem play_guard_returns_unchanged_witness :
    idleControllerW.play 3 = (idleControllerW, none) :=
  play_guard_returns_unchanged idleControllerW 3 (Or.inr (Or.inl rfl))

/-! ### The rate controller -/

/-- The rate written to the engine by one tick, unfolded: the smoothed target
clamped by `Math.max(minRate, Math.min(maxRate, ·))`. -/
theorem updateRate_written_rate (s : AccelerationToRate) (vel acc : ℚ) :
    (s.updateRate vel acc).2
      = max s.minRate (min s.maxRate
          (s.applySmoothingToRate s.currentRate (s.updateRate vel acc).1.targetRate)) := rfl

/-- The new `currentRate` field equals the rate written to the engine. -/
theorem updateRate_currentRate_written (s : AccelerationToRate) (vel acc : ℚ) :
    (s.updateRate vel acc).1.currentRate = (s.updateRate vel acc).2 := rfl

/-- C5: for every controller state and motion input, as long as
`minRate ≤ maxRate`, one `updateRate` tick writes a rate within
`[minRate, maxRate]` to the engine, no matter how far the smoothed target
lies outside that interval. -/
theorem updateRate_rate_clamped (s : AccelerationToRate) (vel acc : ℚ)
    (h : s.minRate ≤ s.maxRate) :
    s.minRate ≤ (s.updateRate vel acc).2 ∧ (s.updateRate vel acc).2 ≤ s.maxRate := by
  rw [updateRate_written_rate]
  exact ⟨le_max_left _ _, max_le h (min_le_left _ _)⟩

/-- Concrete controller for the clamping witness: the target rate `1·(1+100·2)
= 201` is far above `maxRate = 3`, and with `smoothing = 0` the smoothed rate
is 201 as well, yet the written rate stays in `[3/10, 3]`. -/
def rateCtlW : AccelerationToRate :=
  { baseRate := 1, useVelocity := true, sensitivity := 2, minRate := 3/10,
    maxRate := 3, smoothing := 0, motionThreshold := 1, currentRate := 1,
    targetRate := 1 }

theorem updateRate_rate_clamped_witness :
    rateCtlW.minRate ≤ (rateCtlW.updateRate 100 0).2 ∧
    (rateCtlW.updateRate 100 0).2 ≤ rateCtlW.maxRate :=
  updateRate_rate_clamped rateCtlW 100 0 (by norm_num [rateCtlW])

/-- C6: one `updateRate` tick sets `targetRate = baseRate * (1 + m *
sensitivity)` whenever the selected motion magnitude `m` is at least
`motionThreshold` (the boundary `m = motionThreshold` counts as Active, since
the code's Idle test is the strict `m < motionThreshold`), and
`targetRate = baseRate` whenever `m < motionThreshold`. -/
theorem updateRate_threshold_boundary (s : AccelerationToRate) (vel acc : ℚ) :
    (s.motionThreshold ≤ (if s.useVelocity then vel else acc) →
      (s.updateRate vel acc).1.targetRate
        = s.baseRate * (1 + (if s.useVelocity then vel else acc) * s.sensitivity)) ∧
    ((if s.useVelocity then vel else acc) < s.motionThreshold →
      (s.updateRate vel acc).1.targetRate = s.baseRate) := by
  have htr : (s.updateRate vel acc).1.targetRate =
      if (if s.useVelocity then vel else acc) < s.motionThreshold then s.baseRate
      else s.baseRate * (1 + (if s.useVelocity then vel else acc) * s.sensitivity) := rfl
  rw [htr]
  constructor
  · intro h
    rw [if_neg (not_lt.mpr h)]
  · intro h
    rw [if_pos h]

/-- Witness for the threshold boundary: with `motionThreshold = 1`, a motion
magnitude of exactly 1 is Active (`target = 1·(1+1·2) = 3`) and a magnitude
of 0 is Idle (`target = baseRate = 1`). -/
theorem updateRate_threshold_boundary_witness :
    (rateCtlW.updateRate 1 0).1.targetRate
        = rateCtlW.baseRate * (1 + (if rateCtlW.useVelocity then 1 else 0) * rateCtlW.sensitivity) ∧
    (rateCtlW.updateRate 0 0).1.targetRate = rateCtlW.baseRate := by
  have h1 := updateRate_threshold_boundary rateCtlW 1 0
  have h2 := updateRate_threshold_boundary rateCtlW 0 0
  exact ⟨h1.1 (by norm_num [rateCtlW]), h2.2 (by norm_num [rateCtlW])⟩

/-- C9 counterexample: a controller with `smoothing = 0` whose target rate
(5) lies outside `[minRate, maxRate] = [1, 1]`; after one `updateRate` tick
the clamped `currentRate` (1) differs from `targetRate` (5), refuting
"currentRate equals targetRate after exactly one tick" as universally
stated. -/
def accelCexW : AccelerationToRate :=
  { baseRate := 5, useVelocity := true, sensitivity := 0, minRate := 1,
    maxRate := 1, smoothing := 0, motionThreshold := 1, currentRate := 1,
    targetRate := 1 }

theorem smoothing_zero_not_instant_counterexample :
    accelCexW.smoothing = 0 ∧
    (accelCexW.updateRate 0 0).1.currentRate ≠ (accelCexW.updateRate 0 0).1.targetRate := by
  refine ⟨rfl, ?_⟩
  norm_num [AccelerationToRate.updateRate, AccelerationToRate.applySmoothingToRate,
    AccelerationToRate.calculateTargetRate, accelCexW, max_def, min_def]

/-- C9 (amended): with `smoothing = 0` the EMA step is the identity on the
target, so after exactly one `updateRate` tick `currentRate` equals
`targetRate` clamped to `[minRate, maxRate]` — in particular it equals
`targetRate` whenever the target lies in that interval — and for any
`smoothing ∈ [0, 0.95)` the smoothed value lies between the previous
`currentRate` and `targetRate`, never overshooting past the target. -/
theorem smoothing_convergence_no_overshoot (s : AccelerationToRate) (vel acc : ℚ)
    (h0 : 0 ≤ s.smoothing) (h1 : s.smoothing < 19/20) :
    (s.smoothing = 0 →
      (s.updateRate vel acc).1.currentRate
        = max s.minRate (min s.maxRate (s.updateRate vel acc).1.targetRate)) ∧
    (s.smoothing = 0 → s.minRate ≤ (s.updateRate vel acc).1.targetRate →
      (s.updateRate vel acc).1.targetRate ≤ s.maxRate →
      (s.updateRate vel acc).1.currentRate = (s.updateRate vel acc).1.targetRate) ∧
    (s.currentRate ≤ (s.updateRate vel acc).1.targetRate →
      s.currentRate
          ≤ s.applySmoothingToRate s.currentRate (s.updateRate vel acc).1.targetRate ∧
        s.applySmoothingToRate s.currentRate (s.updateRate vel acc).1.targetRate
          ≤ (s.updateRate vel acc).1.targetRate) ∧
    ((s.updateRate vel acc).1.targetRate ≤ s.currentRate →
      (s.updateRate vel acc).1.targetRate
          ≤ s.applySmoothingToRate s.currentRate (s.updateRate vel acc).1.targetRate ∧
        s.applySmoothingToRate s.currentRate (s.updateRate vel acc).1.targetRate
          ≤ s.currentRate) := by
  set T := (s.updateRate vel acc).1.targetRate with hT
  have hcur : (s.updateRate vel acc).1.currentRate
      = max s.minRate (min s.maxRate (s.applySmoothingToRate s.currentRate T)) := rfl
  have hsm : s.applySmoothingToRate s.currentRate T
      = (1 - s.smoothing) * T + s.smoothing * s.currentRate := rfl
  have hinstant : s.smoothing = 0 → s.applySmoothingToRate s.currentRate T = T := by
    intro ha
    rw [hsm, ha]
    ring
  refine ⟨?_, ?_, ?_, ?_⟩
  · intro ha
    rw [hcur, hinstant ha]
  · intro ha hmin hmax
    rw [hcur, hinstant ha, min_eq_right hmax, max_eq_right hmin]
  · intro hct
    constructor
    · rw [hsm]
      nlinarith [mul_nonneg (show (0:ℚ) ≤ 1 - s.smoothing by linarith)
        (show (0:ℚ) ≤ T - s.currentRate by linarith)]
    · rw [hsm]
      nlinarith [mul_nonneg h0 (show (0:ℚ) ≤ T - s.currentRate by linarith)]
  · intro hct
    constructor
    · rw [hsm]
      nlinarith [mul_nonneg h0 (show (0:ℚ) ≤ s.currentRate - T by linarith)]
    · rw [hsm]
      nlinarith [mul_nonneg (show (0:ℚ) ≤ 1 - s.smoothing by linarith)
        (show (0:ℚ) ≤ s.currentRate - T by linarith)]

/-- Controller for the convergence witness: `smoothing = 0`, target
`4·(1+1·1) = 8` inside `[0, 10]`, previous rate 2. -/
def accelAmW : AccelerationToRate :=
  { baseRate := 4, useVelocity := true, sensitivity := 1, minRate := 0,
    maxRate := 10, smoothing := 0, motionThreshold := 0, currentRate := 2,
    targetRate := 2 }

theorem smoothing_convergence_no_overshoot_witness :
    (accelAmW.updateRate 1 0).1.currentRate = (accelAmW.updateRate 1 0).1.targetRate ∧
    accelAmW.currentRate
      ≤ accelAmW.applySmoothingToRate accelAmW.currentRate
          (accelAmW.updateRate 1 0).1.targetRate := by
  have htgt : (accelAmW.updateRate 1 0).1.targetRate = 8 := by
    norm_num [AccelerationToRate.updateRate, AccelerationToRate.calculateTargetRate, accelAmW]
  have h := smoothing_convergence_no_overshoot accelAmW 1 0
    (by norm_num [accelAmW]) (by norm_num [accelAmW])
  refine ⟨h.2.1 rfl ?_ ?_, (h.2.2.1 ?_).1⟩ <;> rw [htgt] <;> norm_num [accelAmW]
